import Mathlib

/-!
Verification of the permission-rollback simulator (`src/main.py`).

The Python program builds a `networkx.DiGraph` from a mapping
`file_system_data : Dict[str, List[str]]` (resource → principals granted
access), then `simulate_rollback(target_user)`:
  1. collects the direct impact (targets of the target user's outgoing edges),
  2. removes all outgoing edges of the target user (in-place mutation),
  3. computes the accessible resources as the union, over graph nodes that are
     mapping keys and over each principal in that key's original list, of
     `nx.descendants` in the mutated graph (with `NetworkXError` for a node
     absent from the graph caught and treated as an empty set), and
  4. returns indirect impact = mapping keys minus accessible resources.

We embed the code shallowly: the graph is a pair of finite sets (nodes,
edges); the in-place mutation becomes explicit state passing; `nx.descendants`
becomes a bounded fixed-point iteration of one BFS expansion step, proved
below to coincide with reflexive-transitive reachability minus the source.
-/

/-- A permission mapping: association list from resource identifier to the
ordered list of principals granted access.  Python guarantees key uniqueness
(`dict`); theorems that depend on it take `(keys m).Nodup` as a hypothesis. -/
abbrev Mapping := List (String × List String)

/-- Shallow embedding of `networkx.DiGraph` restricted to what the program
uses: a finite node set and a finite set of directed edges. -/
structure DiGraph where
  nodes : Finset String
  edges : Finset (String × String)
deriving DecidableEq

/-- `graph.add_node(n)`. -/
def addNode (g : DiGraph) (n : String) : DiGraph :=
  ⟨insert n g.nodes, g.edges⟩

/-- `graph.add_edge(u, v)`: inserts both endpoints as nodes and the edge;
re-adding an existing edge is a no-op (finite-set insertion). -/
def addEdge (g : DiGraph) (u v : String) : DiGraph :=
  ⟨insert u (insert v g.nodes), insert (u, v) g.edges⟩

/-- The fresh `nx.DiGraph()` made in `__init__`. -/
def freshGraph : DiGraph := ⟨∅, ∅⟩

/-- The body of the `for path, permissions in …items()` loop of
`build_dependency_graph`: `add_node(path)`, then `add_edge(user, path)` for
each `user` in `permissions`. -/
def addEntry (g : DiGraph) (pr : String × List String) : DiGraph :=
  pr.2.foldl (fun g' u => addEdge g' u pr.1) (addNode g pr.1)

/-- `build_dependency_graph`: fold the loop body over the mapping's items,
starting from the fresh graph made in `__init__`. -/
def build_dependency_graph (m : Mapping) : DiGraph :=
  m.foldl addEntry freshGraph

/-- The keys of the mapping, `self.file_system_data.keys()`. -/
def keys (m : Mapping) : List String :=
  m.map Prod.fst

/-- Dictionary lookup `self.file_system_data[k]` (first matching key). -/
def lookup (m : Mapping) (k : String) : List String :=
  ((m.find? (fun pr => pr.1 == k)).map Prod.snd).getD []

/-- Step 1 of `simulate_rollback`: the set of `v` with an edge
`target_user → v`, collected before any mutation. -/
def directImpact (g : DiGraph) (t : String) : Finset String :=
  (g.edges.filter (fun e => e.1 = t)).image Prod.snd

/-- Step 2 of `simulate_rollback`: `remove_edges_from` of every edge whose
source is the target user.  Nodes are untouched. -/
def removeTargetEdges (g : DiGraph) (t : String) : DiGraph :=
  ⟨g.nodes, g.edges.filter (fun e => ¬ e.1 = t)⟩

/-- One expansion step of breadth-first reachability: add the targets of all
edges whose source is already in the set. -/
def nxStep (E : Finset (String × String)) (S : Finset String) : Finset String :=
  S ∪ (E.filter (fun e => e.1 ∈ S)).image Prod.snd

/-- The set of nodes reachable from `u` along edges of `E` within `fuel`
expansion steps (always contains `u` itself). -/
def reachSet (E : Finset (String × String)) (fuel : Nat) (u : String) : Finset String :=
  (nxStep E)^[fuel] {u}

/-- `nx.descendants(graph, u)`: all nodes reachable from `u`, excluding `u`
itself (networkx excludes the source even when it lies on a cycle).
`E.card + 1` iterations reach the fixed point (proved below). -/
def descendants (g : DiGraph) (u : String) : Finset String :=
  (reachSet g.edges (g.edges.card + 1) u).erase u

/-- The `try: nx.descendants … except nx.NetworkXError: pass` pattern in the
accessibility loop: a node absent from the graph contributes nothing. -/
def nxDescendantsOrEmpty (g : DiGraph) (u : String) : Finset String :=
  if u ∈ g.nodes then descendants g u else ∅

/-- Union of a list of finite sets (the inner `for user …: accessible_resources.add`
accumulation). -/
def unionList (l : List (Finset String)) : Finset String :=
  l.foldr (fun s acc => s ∪ acc) ∅

/-- The `accessible_resources` loop of `simulate_rollback`: over every node of
the (already mutated) graph that is a mapping key, over every user in that
key's original permission list, all descendants of the user in the mutated
graph. -/
def accessibleResources (m : Mapping) (g : DiGraph) : Finset String :=
  g.nodes.biUnion (fun node =>
    if node ∈ keys m then unionList ((lookup m node).map (nxDescendantsOrEmpty g))
    else ∅)

/-- `simulate_rollback(target_user)`.  The Python method mutates
`self.graph` and returns the two impact sets; we return the mutated graph as a
third component to make the state passing explicit. -/
def simulate_rollback (m : Mapping) (g : DiGraph) (t : String) :
    Finset String × Finset String × DiGraph :=
  let impacted := directImpact g t
  let g' := removeTargetEdges g t
  let accessible := accessibleResources m g'
  (impacted, (keys m).toFinset \ accessible, g')

/-- The grant edges contributed by one mapping entry: `(u, r)` for each
listed user `u` of resource `r`. -/
def entryEdges (pr : String × List String) : List (String × String) :=
  pr.2.map (fun u => (u, pr.1))

lemma foldl_addEdge_nodes (users : List String) (r : String) (g : DiGraph)
    (hr : r ∈ g.nodes) :
    (users.foldl (fun g' u => addEdge g' u r) g).nodes = g.nodes ∪ users.toFinset := by
  induction users generalizing g with
  | nil => simp
  | cons u us ih =>
    have hr' : r ∈ (addEdge g u r).nodes := by simp [addEdge]
    rw [List.foldl_cons, ih _ hr']
    ext x
    simp only [addEdge, Finset.mem_union, Finset.mem_insert, List.toFinset_cons,
      List.mem_toFinset]
    constructor
    · rintro ((rfl | rfl | hx) | hx) <;> tauto
    · rintro (hx | rfl | hx) <;> tauto

lemma foldl_addEdge_edges (users : List String) (r : String) (g : DiGraph) :
    (users.foldl (fun g' u => addEdge g' u r) g).edges
      = g.edges ∪ (users.map (fun u => (u, r))).toFinset := by
  induction users generalizing g with
  | nil => simp
  | cons u us ih =>
    rw [List.foldl_cons, ih]
    ext e
    simp only [addEdge, Finset.mem_union, Finset.mem_insert, List.map_cons,
      List.toFinset_cons, List.mem_toFinset]
    tauto

lemma addEntry_nodes (g : DiGraph) (pr : String × List String) :
    (addEntry g pr).nodes = insert pr.1 g.nodes ∪ pr.2.toFinset := by
  unfold addEntry
  rw [foldl_addEdge_nodes _ _ _ (by simp [addNode])]
  rfl

lemma addEntry_edges (g : DiGraph) (pr : String × List String) :
    (addEntry g pr).edges = g.edges ∪ (entryEdges pr).toFinset := by
  unfold addEntry entryEdges
  rw [foldl_addEdge_edges]
  rfl

lemma foldl_addEntry_nodes (m : Mapping) (g : DiGraph) :
    (m.foldl addEntry g).nodes
      = g.nodes ∪ (keys m).toFinset ∪ (m.flatMap Prod.snd).toFinset := by
  induction m generalizing g with
  | nil => simp [keys]
  | cons pr rest ih =>
    rw [List.foldl_cons, ih, addEntry_nodes]
    ext x
    simp only [keys, Finset.mem_union, Finset.mem_insert, List.map_cons,
      List.toFinset_cons, List.mem_toFinset, List.flatMap_cons, List.toFinset_append,
      List.mem_append]
    tauto

lemma foldl_addEntry_edges (m : Mapping) (g : DiGraph) :
    (m.foldl addEntry g).edges = g.edges ∪ (m.flatMap entryEdges).toFinset := by
  induction m generalizing g with
  | nil => simp
  | cons pr rest ih =>
    rw [List.foldl_cons, ih, addEntry_edges]
    ext e
    simp only [Finset.mem_union, List.flatMap_cons, List.toFinset_append,
      List.mem_append, List.mem_toFinset]
    tauto

/-- The node set of the built graph: mapping keys together with every
principal listed in any value. -/
lemma build_nodes (m : Mapping) :
    (build_dependency_graph m).nodes
      = (keys m).toFinset ∪ (m.flatMap Prod.snd).toFinset := by
  unfold build_dependency_graph
  rw [foldl_addEntry_nodes]
  simp [freshGraph]

/-- The edge set of the built graph: exactly the grant edges of the entries. -/
lemma build_edges (m : Mapping) :
    (build_dependency_graph m).edges = (m.flatMap entryEdges).toFinset := by
  unfold build_dependency_graph
  rw [foldl_addEntry_edges]
  simp [freshGraph]

/-- Edge membership in the built graph: an edge `u → r` exists iff some entry
of the mapping has key `r` and lists `u`. -/
lemma mem_build_edges (m : Mapping) (u r : String) :
    (u, r) ∈ (build_dependency_graph m).edges ↔ ∃ l, (r, l) ∈ m ∧ u ∈ l := by
  rw [build_edges]
  simp only [List.mem_toFinset, List.mem_flatMap, entryEdges, List.mem_map,
    Prod.mk.injEq]
  constructor
  · rintro ⟨pr, hpr, u', hu', rfl, rfl⟩
    exact ⟨pr.2, hpr, hu'⟩
  · rintro ⟨l, hl, hu⟩
    exact ⟨(r, l), hl, u, hu, rfl, rfl⟩

lemma key_mem_build_nodes {m : Mapping} {r : String} (h : r ∈ keys m) :
    r ∈ (build_dependency_graph m).nodes := by
  rw [build_nodes]
  simp only [Finset.mem_union, List.mem_toFinset]
  exact Or.inl h

lemma build_edge_endpoints {m : Mapping} {u r : String}
    (h : (u, r) ∈ (build_dependency_graph m).edges) :
    u ∈ (build_dependency_graph m).nodes ∧ r ∈ (build_dependency_graph m).nodes := by
  rw [mem_build_edges] at h
  obtain ⟨l, hl, hu⟩ := h
  rw [build_nodes]
  constructor
  · simp only [Finset.mem_union, List.mem_toFinset]
    exact Or.inr (List.mem_flatMap.2 ⟨(r, l), hl, hu⟩)
  · simp only [Finset.mem_union, List.mem_toFinset]
    exact Or.inl (List.mem_map.2 ⟨(r, l), hl, rfl⟩)

/-- Reachability along the directed edges of `E`: the spec's "set of nodes
reachable from P by following directed edges", as reflexive-transitive
closure of the edge relation. -/
def Reaches (E : Finset (String × String)) (u v : String) : Prop :=
  Relation.ReflTransGen (fun a b => (a, b) ∈ E) u v

lemma mem_nxStep {E : Finset (String × String)} {S : Finset String} {x : String} :
    x ∈ nxStep E S ↔ x ∈ S ∨ ∃ e ∈ E, e.1 ∈ S ∧ e.2 = x := by
  simp only [nxStep, Finset.mem_union, Finset.mem_image, Finset.mem_filter]
  tauto

lemma subset_nxStep (E : Finset (String × String)) (S : Finset String) :
    S ⊆ nxStep E S :=
  Finset.subset_union_left

lemma reachSet_zero (E : Finset (String × String)) (u : String) :
    reachSet E 0 u = {u} := rfl

lemma reachSet_succ (E : Finset (String × String)) (k : Nat) (u : String) :
    reachSet E (k + 1) u = nxStep E (reachSet E k u) := by
  unfold reachSet
  rw [Function.iterate_succ_apply']

lemma reachSet_subset_succ (E : Finset (String × String)) (k : Nat) (u : String) :
    reachSet E k u ⊆ reachSet E (k + 1) u := by
  rw [reachSet_succ]
  exact subset_nxStep E _

lemma reachSet_mono (E : Finset (String × String)) {k l : Nat} (h : k ≤ l)
    (u : String) : reachSet E k u ⊆ reachSet E l u := by
  induction l with
  | zero => simp [Nat.le_zero.1 h]
  | succ n ih =>
    rcases Nat.lt_or_ge k (n + 1) with hk | hk
    · exact (ih (Nat.lt_succ_iff.1 hk)).trans (reachSet_subset_succ E n u)
    · have : k = n + 1 := Nat.le_antisymm h hk
      subst this
      exact Finset.Subset.refl _

lemma self_mem_reachSet (E : Finset (String × String)) (k : Nat) (u : String) :
    u ∈ reachSet E k u :=
  reachSet_mono E (Nat.zero_le k) u (by simp [reachSet_zero])

lemma reaches_of_mem_reachSet {E : Finset (String × String)} {k : Nat}
    {u x : String} (h : x ∈ reachSet E k u) : Reaches E u x := by
  induction k generalizing x with
  | zero =>
    rw [reachSet_zero, Finset.mem_singleton] at h
    exact h ▸ Relation.ReflTransGen.refl
  | succ n ih =>
    rw [reachSet_succ, mem_nxStep] at h
    rcases h with h | ⟨e, he, hs, rfl⟩
    · exact ih h
    · exact Relation.ReflTransGen.tail (ih hs) (by simpa using he)

lemma exists_reachSet_of_reaches {E : Finset (String × String)} {u x : String}
    (h : Reaches E u x) : ∃ k, x ∈ reachSet E k u := by
  induction h with
  | refl => exact ⟨0, by simp [reachSet_zero]⟩
  | tail hab hbc ih =>
    obtain ⟨k, hk⟩ := ih
    refine ⟨k + 1, ?_⟩
    rw [reachSet_succ, mem_nxStep]
    exact Or.inr ⟨_, hbc, hk, rfl⟩

lemma reachSet_fixed_add {E : Finset (String × String)} {k : Nat} {u : String}
    (h : reachSet E (k + 1) u = reachSet E k u) (j : Nat) :
    reachSet E (k + j) u = reachSet E k u := by
  induction j with
  | zero => rfl
  | succ n ih =>
    have : k + (n + 1) = (k + n) + 1 := rfl
    rw [this, reachSet_succ, ih, ← reachSet_succ, h]

lemma card_le_reachSet_of_strict {E : Finset (String × String)} {u : String} :
    ∀ k : Nat, (∀ j < k, reachSet E (j + 1) u ≠ reachSet E j u) →
      k + 1 ≤ (reachSet E k u).card := by
  intro k
  induction k with
  | zero => intro _; simp [reachSet_zero]
  | succ n ih =>
    intro h
    have hn : n + 1 ≤ (reachSet E n u).card :=
      ih (fun j hj => h j (Nat.lt_succ_of_lt hj))
    have hne : reachSet E (n + 1) u ≠ reachSet E n u := h n (Nat.lt_succ_self n)
    have hss : reachSet E n u ⊂ reachSet E (n + 1) u :=
      Finset.ssubset_iff_subset_ne.2 ⟨reachSet_subset_succ E n u, fun he => hne he.symm⟩
    have := Finset.card_lt_card hss
    omega

lemma reachSet_subset_targets (E : Finset (String × String)) (k : Nat) (u : String) :
    reachSet E k u ⊆ insert u (E.image Prod.snd) := by
  induction k with
  | zero => simp [reachSet_zero]
  | succ n ih =>
    rw [reachSet_succ]
    intro x hx
    rcases mem_nxStep.1 hx with h | ⟨e, he, _, rfl⟩
    · exact ih h
    · exact Finset.mem_insert_of_mem (Finset.mem_image_of_mem Prod.snd he)

lemma reachSet_card_le (E : Finset (String × String)) (k : Nat) (u : String) :
    (reachSet E k u).card ≤ E.card + 1 := by
  have h1 : (reachSet E k u).card ≤ (insert u (E.image Prod.snd)).card :=
    Finset.card_le_card (reachSet_subset_targets E k u)
  have h2 : (insert u (E.image Prod.snd)).card ≤ (E.image Prod.snd).card + 1 :=
    Finset.card_insert_le u _
  have h3 : (E.image Prod.snd).card ≤ E.card := Finset.card_image_le
  omega

/-- `E.card + 1` expansion steps reach the fixed point: any node reachable
within any number of steps is already in `reachSet E (E.card + 1) u`. -/
lemma mem_reachSet_final {E : Finset (String × String)} {k : Nat} {u x : String}
    (h : x ∈ reachSet E k u) : x ∈ reachSet E (E.card + 1) u := by
  by_cases hfix : ∃ j < E.card + 1, reachSet E (j + 1) u = reachSet E j u
  · obtain ⟨j, hj, heq⟩ := hfix
    rcases Nat.lt_or_ge k (E.card + 1) with hk | hk
    · exact reachSet_mono E (Nat.le_of_lt hk) u h
    · rcases Nat.le_total k j with hkj | hjk
      · exact reachSet_mono E (hkj.trans (Nat.le_of_lt hj)) u h
      · have hkeq : reachSet E k u = reachSet E j u := by
          have : k = j + (k - j) := by omega
          rw [this]
          exact reachSet_fixed_add heq _
        have hfin : reachSet E (E.card + 1) u = reachSet E j u := by
          have : E.card + 1 = j + (E.card + 1 - j) := by omega
          rw [this]
          exact reachSet_fixed_add heq _
        rw [hfin, ← hkeq]
        exact h
  · push_neg at hfix
    have := card_le_reachSet_of_strict (E := E) (u := u) (E.card + 1) hfix
    have := reachSet_card_le E (E.card + 1) u
    omega

/-- Membership in the modelled `nx.descendants`: exactly the nodes distinct
from `u` that are reachable from `u`. -/
lemma mem_descendants {g : DiGraph} {u x : String} :
    x ∈ descendants g u ↔ x ≠ u ∧ Reaches g.edges u x := by
  unfold descendants
  rw [Finset.mem_erase]
  constructor
  · rintro ⟨hne, hm⟩
    exact ⟨hne, reaches_of_mem_reachSet hm⟩
  · rintro ⟨hne, hr⟩
    obtain ⟨k, hk⟩ := exists_reachSet_of_reaches hr
    exact ⟨hne, mem_reachSet_final hk⟩

/-- Modelled from the spec (§4.2 Step 3): "the set of nodes reachable from P
by following directed edges in the now-mutated graph (the transitive
descendant set of P)" — reachable nodes other than P itself. -/
def specDescendantSet (E : Finset (String × String)) (p : String) : Set String :=
  {v | v ≠ p ∧ Reaches E p v}

/-- Modelled from the spec (§4.2 Step 3): "AccessibleResources as the union,
over every resource key R and every principal P in R's original permission
list, of the transitive descendant set of P" in the mutated edge set `E`. -/
def specAccessibleResources (m : Mapping) (E : Finset (String × String)) : Set String :=
  {v | ∃ pr ∈ m, ∃ p ∈ pr.2, v ∈ specDescendantSet E p}

/-- Modelled from the spec (§4.2 Step 3): "IndirectImpact = (set of all
resource keys) − AccessibleResources". -/
def specIndirectImpact (m : Mapping) (E : Finset (String × String)) : Set String :=
  {r | r ∈ keys m} \ specAccessibleResources m E

lemma mem_unionList {l : List (Finset String)} {x : String} :
    x ∈ unionList l ↔ ∃ s ∈ l, x ∈ s := by
  induction l with
  | nil => simp [unionList]
  | cons s rest ih =>
    simp only [unionList, List.foldr_cons, Finset.mem_union, List.mem_cons]
    rw [show rest.foldr (fun s acc => s ∪ acc) ∅ = unionList rest from rfl] at *
    constructor
    · rintro (hx | hx)
      · exact ⟨s, Or.inl rfl, hx⟩
      · obtain ⟨t, ht, hx⟩ := ih.1 hx
        exact ⟨t, Or.inr ht, hx⟩
    · rintro ⟨t, rfl | ht, hx⟩
      · exact Or.inl hx
      · exact Or.inr (ih.2 ⟨t, ht, hx⟩)

lemma lookup_eq_of_nodup {m : Mapping} {r : String} {l : List String}
    (hnd : (keys m).Nodup) (hm : (r, l) ∈ m) : lookup m r = l := by
  induction m with
  | nil => cases hm
  | cons pr rest ih =>
    rw [keys, List.map_cons, List.nodup_cons] at hnd
    rcases List.mem_cons.1 hm with heq | hm'
    · rw [← heq]
      simp [lookup, List.find?]
    · have hne : pr.1 ≠ r := by
        intro h
        exact hnd.1 (h ▸ List.mem_map.2 ⟨(r, l), hm', rfl⟩)
      have hb : (pr.1 == r) = false := beq_eq_false_iff_ne.2 hne
      have : lookup (pr :: rest) r = lookup rest r := by
        simp [lookup, List.find?, hb]
      rw [this]
      exact ih hnd.2 hm'

lemma mem_keys_iff {m : Mapping} {r : String} :
    r ∈ keys m ↔ ∃ l, (r, l) ∈ m := by
  simp only [keys, List.mem_map]
  constructor
  · rintro ⟨pr, hpr, rfl⟩
    exact ⟨pr.2, hpr⟩
  · rintro ⟨l, hl⟩
    exact ⟨(r, l), hl, rfl⟩

lemma mem_specDescendantSet {E : Finset (String × String)} {p x : String} :
    x ∈ specDescendantSet E p ↔ x ≠ p ∧ Reaches E p x := Iff.rfl

lemma specDescendantSet_not_node {g : DiGraph}
    (hwf : ∀ e ∈ g.edges, e.1 ∈ g.nodes) {u x : String} (hu : u ∉ g.nodes) :
    x ∉ specDescendantSet g.edges u := by
  rintro ⟨hne, hr⟩
  rcases Relation.ReflTransGen.cases_head hr with heq | ⟨c, hc, _⟩
  · exact hne heq.symm
  · exact hu (hwf (u, c) hc)

lemma mem_nxDescendantsOrEmpty_iff {g : DiGraph}
    (hwf : ∀ e ∈ g.edges, e.1 ∈ g.nodes) (u x : String) :
    x ∈ nxDescendantsOrEmpty g u ↔ x ∈ specDescendantSet g.edges u := by
  unfold nxDescendantsOrEmpty
  by_cases hu : u ∈ g.nodes
  · rw [if_pos hu, mem_descendants, mem_specDescendantSet]
  · rw [if_neg hu]
    simp only [Finset.not_mem_empty, false_iff]
    exact specDescendantSet_not_node hwf hu

lemma mem_accessibleResources {m : Mapping} {g : DiGraph} {x : String}
    (hnd : (keys m).Nodup) (hkeys : ∀ r ∈ keys m, r ∈ g.nodes)
    (hwf : ∀ e ∈ g.edges, e.1 ∈ g.nodes) :
    x ∈ accessibleResources m g ↔ x ∈ specAccessibleResources m g.edges := by
  unfold accessibleResources specAccessibleResources
  simp only [Finset.mem_biUnion, Set.mem_setOf_eq]
  constructor
  · rintro ⟨node, hnode, hx⟩
    by_cases hk : node ∈ keys m
    · rw [if_pos hk] at hx
      obtain ⟨s, hs, hxs⟩ := mem_unionList.1 hx
      obtain ⟨u, hu, rfl⟩ := List.mem_map.1 hs
      obtain ⟨l, hl⟩ := mem_keys_iff.1 hk
      rw [lookup_eq_of_nodup hnd hl] at hu
      exact ⟨(node, l), hl, u, hu, (mem_nxDescendantsOrEmpty_iff hwf u x).1 hxs⟩
    · rw [if_neg hk] at hx
      cases Finset.not_mem_empty x hx
  · rintro ⟨pr, hpr, p, hp, hx⟩
    have hk : pr.1 ∈ keys m := List.mem_map.2 ⟨pr, hpr, rfl⟩
    refine ⟨pr.1, hkeys _ hk, ?_⟩
    rw [if_pos hk]
    have hlk : lookup m pr.1 = pr.2 := lookup_eq_of_nodup hnd (by simpa using hpr)
    exact mem_unionList.2 ⟨nxDescendantsOrEmpty g p,
      List.mem_map.2 ⟨p, hlk ▸ hp, rfl⟩, (mem_nxDescendantsOrEmpty_iff hwf p x).2 hx⟩

lemma removeTargetEdges_nodes (g : DiGraph) (t : String) :
    (removeTargetEdges g t).nodes = g.nodes := rfl

lemma removeTargetEdges_edges_subset (g : DiGraph) (t : String) :
    (removeTargetEdges g t).edges ⊆ g.edges :=
  Finset.filter_subset _ _

lemma removed_build_wf (m : Mapping) (t : String) :
    ∀ e ∈ (removeTargetEdges (build_dependency_graph m) t).edges,
      e.1 ∈ (removeTargetEdges (build_dependency_graph m) t).nodes := by
  rintro ⟨u, r⟩ he
  rw [removeTargetEdges_nodes]
  exact (build_edge_endpoints (removeTargetEdges_edges_subset _ _ he)).1

lemma removed_build_keys (m : Mapping) (t : String) :
    ∀ r ∈ keys m, r ∈ (removeTargetEdges (build_dependency_graph m) t).nodes := by
  intro r hr
  rw [removeTargetEdges_nodes]
  exact key_mem_build_nodes hr

lemma mem_directImpact {g : DiGraph} {t x : String} :
    x ∈ directImpact g t ↔ (t, x) ∈ g.edges := by
  unfold directImpact
  simp only [Finset.mem_image, Finset.mem_filter]
  constructor
  · rintro ⟨⟨a, b⟩, ⟨he, het⟩, rfl⟩
    cases het
    exact he
  · intro h
    exact ⟨(t, x), ⟨h, rfl⟩, rfl⟩

lemma fst_eq_of_mem_sim (m : Mapping) (g : DiGraph) (t : String) :
    (simulate_rollback m g t).1 = directImpact g t := rfl

/-- The transitive-chain mapping of spec §8:
`{"R1": ["groupA"], "groupA": ["u1"]}`. -/
def chainMapping : Mapping := [("R1", ["groupA"]), ("groupA", ["u1"])]

/-- Claim C1: after the revocation step, the indirect-impact set returned by
`simulate_rollback` equals the set of all mapping keys minus
AccessibleResources, where AccessibleResources is the union over every
resource key `R` and every principal `P` in `R`'s original permission list of
`P`'s transitive descendant set in the post-mutation graph. -/
theorem indirect_impact_matches_spec (m : Mapping) (t : String)
    (hnd : (keys m).Nodup) (x : String) :
    (x ∈ (simulate_rollback m (build_dependency_graph m) t).2.1 ↔
      x ∈ specIndirectImpact m
        (removeTargetEdges (build_dependency_graph m) t).edges) := by
  have hacc :=
    mem_accessibleResources (g := removeTargetEdges (build_dependency_graph m) t)
      (x := x) hnd (removed_build_keys m t) (removed_build_wf m t)
  show x ∈ (keys m).toFinset \
      accessibleResources m (removeTargetEdges (build_dependency_graph m) t) ↔ _
  rw [Finset.mem_sdiff]
  unfold specIndirectImpact
  rw [Set.mem_diff, List.mem_toFinset]
  constructor
  · rintro ⟨hk, hna⟩
    exact ⟨hk, fun hs => hna (hacc.2 hs)⟩
  · rintro ⟨hk, hns⟩
    exact ⟨hk, fun ha => hns (hacc.1 ha)⟩

theorem indirect_impact_matches_spec_witness :
    (keys chainMapping).Nodup ∧
      (("R1" : String) ∈
          (simulate_rollback chainMapping (build_dependency_graph chainMapping)
            "u1").2.1 ↔
        "R1" ∈ specIndirectImpact chainMapping
          (removeTargetEdges (build_dependency_graph chainMapping) "u1").edges) :=
  ⟨by decide, indirect_impact_matches_spec chainMapping "u1" (by decide) "R1"⟩

/-- Claim C2: for the mapping `{"R1": ["groupA"], "groupA": ["u1"]}` with
rollback target `"u1"`, DirectImpact = {"groupA"}, IndirectImpact =
{"groupA"}, and `"R1"` is in neither set. -/
theorem transitive_chain_example :
    (simulate_rollback chainMapping (build_dependency_graph chainMapping)
        "u1").1 = {"groupA"} ∧
    (simulate_rollback chainMapping (build_dependency_graph chainMapping)
        "u1").2.1 = {"groupA"} ∧
    "R1" ∉ (simulate_rollback chainMapping (build_dependency_graph chainMapping)
        "u1").1 ∧
    "R1" ∉ (simulate_rollback chainMapping (build_dependency_graph chainMapping)
        "u1").2.1 := by
  refine ⟨?_, ?_, by decide, by decide⟩ <;>
    (apply Finset.Subset.antisymm <;> decide)

/-- Claim C3: the direct-impact set equals the targets of the edges leaving
the target principal in the pre-mutation graph; a target with no outgoing
edges (in particular one absent from the graph) yields the empty set. -/
theorem direct_impact_characterization (m : Mapping) (g : DiGraph) (t : String) :
    (∀ x, x ∈ (simulate_rollback m g t).1 ↔ (t, x) ∈ g.edges) ∧
      ((∀ e ∈ g.edges, ¬ e.1 = t) → (simulate_rollback m g t).1 = ∅) := by
  have hmem : ∀ x, x ∈ (simulate_rollback m g t).1 ↔ (t, x) ∈ g.edges := by
    intro x
    rw [fst_eq_of_mem_sim]
    exact mem_directImpact
  refine ⟨hmem, fun h => ?_⟩
  ext x
  simp only [Finset.not_mem_empty, iff_false]
  intro hx
  exact h (t, x) ((hmem x).1 hx) rfl

theorem direct_impact_characterization_witness :
    (simulate_rollback [("A", ["u1"])] (build_dependency_graph [("A", ["u1"])])
        "ghost").1 = ∅ :=
  (direct_impact_characterization [("A", ["u1"])]
    (build_dependency_graph [("A", ["u1"])]) "ghost").2 (by decide)

/-- Claim C4: `simulate_rollback` is total — it returns a pair of sets for
any graph and any target string — and a reachability query against a
principal absent from the graph contributes the empty set (the caught
`NetworkXError` branch) rather than an error. -/
theorem rollback_total_absent_principal (m : Mapping) (g : DiGraph) (u : String)
    (h : u ∉ g.nodes) :
    nxDescendantsOrEmpty g u = ∅ ∧
      ∃ p : Finset String × Finset String × DiGraph, simulate_rollback m g u = p :=
  ⟨by simp [nxDescendantsOrEmpty, h], ⟨_, rfl⟩⟩

theorem rollback_total_absent_principal_witness :
    nxDescendantsOrEmpty (build_dependency_graph [("A", ["u1"])]) "ghost" = ∅ ∧
      ∃ p : Finset String × Finset String × DiGraph,
        simulate_rollback [("A", ["u1"])]
          (build_dependency_graph [("A", ["u1"])]) "ghost" = p :=
  rollback_total_absent_principal [("A", ["u1"])]
    (build_dependency_graph [("A", ["u1"])]) "ghost" (by decide)

/-- Claim C5: a second call on the same graph instance operates on the
already-mutated graph — after both calls the edge set is the original minus
the outgoing edges of both targets, and the second call's direct impact is
computed against the graph with the first target's edges already gone. -/
theorem rollback_compounds (m : Mapping) (g : DiGraph) (t1 t2 : String) :
    (simulate_rollback m (simulate_rollback m g t1).2.2 t2).2.2.edges
      = g.edges.filter (fun e => ¬ e.1 = t1 ∧ ¬ e.1 = t2) ∧
    ∀ x, (x ∈ (simulate_rollback m (simulate_rollback m g t1).2.2 t2).1 ↔
      ((t2, x) ∈ g.edges ∧ ¬ t2 = t1)) := by
  constructor
  · show (removeTargetEdges (removeTargetEdges g t1) t2).edges = _
    unfold removeTargetEdges
    rw [Finset.filter_filter]
  · intro x
    rw [fst_eq_of_mem_sim, mem_directImpact]
    show (t2, x) ∈ (removeTargetEdges g t1).edges ↔ _
    unfold removeTargetEdges
    rw [Finset.mem_filter]

/-- Claim C6: the built graph's node set is exactly the mapping keys together
with every principal listed in any value; the rollback step never changes the
node set and removes exactly the outgoing edges of the target. -/
theorem node_set_construction_invariant (m : Mapping) (g : DiGraph) (t : String) :
    (build_dependency_graph m).nodes
      = (keys m).toFinset ∪ (m.flatMap Prod.snd).toFinset ∧
    (simulate_rollback m g t).2.2.nodes = g.nodes ∧
    (simulate_rollback m g t).2.2.edges
      = g.edges \ g.edges.filter (fun e => e.1 = t) := by
  refine ⟨build_nodes m, rfl, ?_⟩
  show (removeTargetEdges g t).edges = _
  unfold removeTargetEdges
  ext e
  simp only [Finset.mem_filter, Finset.mem_sdiff]
  tauto

/-- Claim C7: an edge `u → r` exists in the built graph iff `r`'s permission
list contains `u`; duplicate occurrences collapse, so `{"R": ["u1","u1"]}`
yields exactly one edge `u1 → R`. -/
theorem edge_iff_granted (m : Mapping) (u r : String) :
    ((u, r) ∈ (build_dependency_graph m).edges ↔ ∃ l, (r, l) ∈ m ∧ u ∈ l) ∧
    (build_dependency_graph [("R", ["u1", "u1"])]).edges = {("u1", "R")} ∧
    (build_dependency_graph [("R", ["u1", "u1"])]).edges.card = 1 := by
  refine ⟨mem_build_edges m u r, ?_, by decide⟩
  apply Finset.Subset.antisymm <;> decide

/-- Claim C8: a target with no outgoing edges yields an empty direct impact
and the revocation step leaves the edge set unchanged. -/
theorem noop_target_leaves_graph (m : Mapping) (g : DiGraph) (t : String)
    (h : ∀ e ∈ g.edges, ¬ e.1 = t) :
    (simulate_rollback m g t).1 = ∅ ∧
      (simulate_rollback m g t).2.2.edges = g.edges := by
  constructor
  · ext x
    simp only [Finset.not_mem_empty, iff_false]
    intro hx
    rw [fst_eq_of_mem_sim] at hx
    exact h (t, x) (mem_directImpact.1 hx) rfl
  · show (removeTargetEdges g t).edges = g.edges
    unfold removeTargetEdges
    exact Finset.filter_true_of_mem h

theorem noop_target_leaves_graph_witness :
    (simulate_rollback [("A", ["u1"])] (build_dependency_graph [("A", ["u1"])])
        "zz").1 = ∅ ∧
    (simulate_rollback [("A", ["u1"])] (build_dependency_graph [("A", ["u1"])])
        "zz").2.2.edges = (build_dependency_graph [("A", ["u1"])]).edges :=
  noop_target_leaves_graph [("A", ["u1"])]
    (build_dependency_graph [("A", ["u1"])]) "zz" (by decide)

lemma entry_iff_of_forall₂ {m₃ m₂ : Mapping}
    (h : List.Forall₂ (fun a b => a.1 = b.1 ∧ a.2.Perm b.2) m₃ m₂) (r u : String) :
    (∃ l, (r, l) ∈ m₃ ∧ u ∈ l) ↔ (∃ l, (r, l) ∈ m₂ ∧ u ∈ l) := by
  induction h with
  | nil => simp
  | @cons a b l₁ l₂ hab _ ih =>
    constructor
    · rintro ⟨l, hl, hu⟩
      rcases List.mem_cons.1 hl with heq | hl'
      · subst heq
        have hb : b = (r, b.2) := by
          rw [Prod.ext_iff]
          exact ⟨hab.1.symm, rfl⟩
        exact ⟨b.2, List.mem_cons.2 (Or.inl hb.symm), hab.2.mem_iff.1 hu⟩
      · obtain ⟨l', h1, h2⟩ := ih.1 ⟨l, hl', hu⟩
        exact ⟨l', List.mem_cons_of_mem _ h1, h2⟩
    · rintro ⟨l, hl, hu⟩
      rcases List.mem_cons.1 hl with heq | hl'
      · subst heq
        have ha : a = (r, a.2) := by
          rw [Prod.ext_iff]
          exact ⟨hab.1, rfl⟩
        exact ⟨a.2, List.mem_cons.2 (Or.inl ha.symm), hab.2.mem_iff.2 hu⟩
      · obtain ⟨l', h1, h2⟩ := ih.2 ⟨l, hl', hu⟩
        exact ⟨l', List.mem_cons_of_mem _ h1, h2⟩

lemma key_iff_of_forall₂ {m₃ m₂ : Mapping}
    (h : List.Forall₂ (fun a b => a.1 = b.1 ∧ a.2.Perm b.2) m₃ m₂) (r : String) :
    (∃ l, (r, l) ∈ m₃) ↔ (∃ l, (r, l) ∈ m₂) := by
  induction h with
  | nil => simp
  | @cons a b l₁ l₂ hab _ ih =>
    constructor
    · rintro ⟨l, hl⟩
      rcases List.mem_cons.1 hl with heq | hl'
      · subst heq
        have hb : b = (r, b.2) := by
          rw [Prod.ext_iff]
          exact ⟨hab.1.symm, rfl⟩
        exact ⟨b.2, List.mem_cons.2 (Or.inl hb.symm)⟩
      · obtain ⟨l', h1⟩ := ih.1 ⟨l, hl'⟩
        exact ⟨l', List.mem_cons_of_mem _ h1⟩
    · rintro ⟨l, hl⟩
      rcases List.mem_cons.1 hl with heq | hl'
      · subst heq
        have ha : a = (r, a.2) := by
          rw [Prod.ext_iff]
          exact ⟨hab.1, rfl⟩
        exact ⟨a.2, List.mem_cons.2 (Or.inl ha.symm)⟩
      · obtain ⟨l', h1⟩ := ih.2 ⟨l, hl'⟩
        exact ⟨l', List.mem_cons_of_mem _ h1⟩

lemma exists_snd_mem_iff (mm : Mapping) (x : String) :
    (∃ a ∈ mm, x ∈ a.2) ↔ ∃ r l, (r, l) ∈ mm ∧ x ∈ l := by
  constructor
  · rintro ⟨⟨r, l⟩, ha, hx⟩
    exact ⟨r, l, ha, hx⟩
  · rintro ⟨r, l, ha, hx⟩
    exact ⟨(r, l), ha, hx⟩

/-- Claim C9: graph construction is order-insensitive — reorder the mapping's
entries (`m₁ ~ m₃`) and the principals within each value list (`m₃` related
entrywise to `m₂`), and the built node and edge sets are identical. -/
theorem build_order_insensitive (m₁ m₂ m₃ : Mapping)
    (h₁ : m₁.Perm m₃)
    (h₂ : List.Forall₂ (fun a b => a.1 = b.1 ∧ a.2.Perm b.2) m₃ m₂) :
    (build_dependency_graph m₁).nodes = (build_dependency_graph m₂).nodes ∧
      (build_dependency_graph m₁).edges = (build_dependency_graph m₂).edges := by
  have hent : ∀ r u, (∃ l, (r, l) ∈ m₁ ∧ u ∈ l) ↔ (∃ l, (r, l) ∈ m₂ ∧ u ∈ l) := by
    intro r u
    constructor
    · rintro ⟨l, hl, hu⟩
      exact (entry_iff_of_forall₂ h₂ r u).1 ⟨l, h₁.mem_iff.1 hl, hu⟩
    · intro h
      obtain ⟨l, hl, hu⟩ := (entry_iff_of_forall₂ h₂ r u).2 h
      exact ⟨l, h₁.mem_iff.2 hl, hu⟩
  have hkey : ∀ r, (∃ l, (r, l) ∈ m₁) ↔ ∃ l, (r, l) ∈ m₂ := by
    intro r
    constructor
    · rintro ⟨l, hl⟩
      exact (key_iff_of_forall₂ h₂ r).1 ⟨l, h₁.mem_iff.1 hl⟩
    · intro h
      obtain ⟨l, hl⟩ := (key_iff_of_forall₂ h₂ r).2 h
      exact ⟨l, h₁.mem_iff.2 hl⟩
  constructor
  · rw [build_nodes, build_nodes]
    ext x
    simp only [Finset.mem_union, List.mem_toFinset, List.mem_flatMap]
    rw [show (x ∈ keys m₁) = (∃ l, (x, l) ∈ m₁) from propext mem_keys_iff,
      show (x ∈ keys m₂) = (∃ l, (x, l) ∈ m₂) from propext mem_keys_iff,
      show (∃ a ∈ m₁, x ∈ a.2) = (∃ r l, (r, l) ∈ m₁ ∧ x ∈ l) from
        propext (exists_snd_mem_iff m₁ x),
      show (∃ a ∈ m₂, x ∈ a.2) = (∃ r l, (r, l) ∈ m₂ ∧ x ∈ l) from
        propext (exists_snd_mem_iff m₂ x)]
    rw [propext (hkey x)]
    rw [show (∃ r l, (r, l) ∈ m₁ ∧ x ∈ l) = (∃ r l, (r, l) ∈ m₂ ∧ x ∈ l) from
      propext (exists_congr fun r => hent r x)]
  · ext e
    rcases e with ⟨u, r⟩
    rw [mem_build_edges, mem_build_edges]
    exact hent r u

theorem build_order_insensitive_witness :
    (build_dependency_graph [("A", ["u", "v"]), ("B", ["w"])]).nodes
        = (build_dependency_graph [("B", ["w"]), ("A", ["v", "u"])]).nodes ∧
      (build_dependency_graph [("A", ["u", "v"]), ("B", ["w"])]).edges
        = (build_dependency_graph [("B", ["w"]), ("A", ["v", "u"])]).edges :=
  build_order_insensitive [("A", ["u", "v"]), ("B", ["w"])]
    [("B", ["w"]), ("A", ["v", "u"])] [("B", ["w"]), ("A", ["u", "v"])]
    (by decide)
    (List.Forall₂.cons ⟨rfl, by decide⟩
      (List.Forall₂.cons ⟨rfl, by decide⟩ List.Forall₂.nil))

lemma entry_unique {m : Mapping} {r : String} {l l' : List String}
    (hnd : (keys m).Nodup) (h1 : (r, l) ∈ m) (h2 : (r, l') ∈ m) : l = l' := by
  have e1 := lookup_eq_of_nodup hnd h1
  have e2 := lookup_eq_of_nodup hnd h2
  rw [← e1, ← e2]

lemma reaches_into_self_only {E : Finset (String × String)} {X : String}
    (hin : ∀ p, (p, X) ∈ E → p = X) :
    ∀ u b, Reaches E u b → b = X → u = X := by
  intro u b h
  induction h with
  | refl => exact fun h' => h'
  | tail _ hbc ih =>
    intro hc
    subst hc
    exact ih (hin _ hbc)

/-- Claim C10: because the descendant set used in orphan detection excludes
its starting node, a resource whose original permission list contains only
itself is classified as indirectly impacted for every target principal. -/
theorem self_granted_always_orphaned (m : Mapping) (X : String) (l : List String)
    (hnd : (keys m).Nodup) (hm : (X, l) ∈ m) (hl : ∀ p ∈ l, p = X) (t : String) :
    X ∈ (simulate_rollback m (build_dependency_graph m) t).2.1 := by
  show X ∈ (keys m).toFinset \
    accessibleResources m (removeTargetEdges (build_dependency_graph m) t)
  rw [Finset.mem_sdiff]
  refine ⟨List.mem_toFinset.2 (mem_keys_iff.2 ⟨l, hm⟩), ?_⟩
  intro hX
  obtain ⟨node, hnode, hx⟩ := Finset.mem_biUnion.1 hX
  by_cases hk : node ∈ keys m
  · rw [if_pos hk] at hx
    obtain ⟨s, hs, hxs⟩ := mem_unionList.1 hx
    obtain ⟨p, hp, rfl⟩ := List.mem_map.1 hs
    unfold nxDescendantsOrEmpty at hxs
    by_cases hpn : p ∈ (removeTargetEdges (build_dependency_graph m) t).nodes
    · rw [if_pos hpn, mem_descendants] at hxs
      obtain ⟨hne, hr⟩ := hxs
      have hin : ∀ q,
          (q, X) ∈ (removeTargetEdges (build_dependency_graph m) t).edges →
            q = X := by
        intro q hq
        have hq' : (q, X) ∈ (build_dependency_graph m).edges :=
          removeTargetEdges_edges_subset _ _ hq
        obtain ⟨l', hl', hql⟩ := (mem_build_edges m q X).1 hq'
        exact hl q (entry_unique hnd hl' hm ▸ hql)
      exact hne (reaches_into_self_only hin p X hr rfl).symm
    · rw [if_neg hpn] at hxs
      exact Finset.not_mem_empty X hxs
  · rw [if_neg hk] at hx
    exact Finset.not_mem_empty X hx

theorem self_granted_always_orphaned_witness :
    (keys [("X", ["X"])]).Nodup ∧
      ("X" : String) ∈ (simulate_rollback [("X", ["X"])]
        (build_dependency_graph [("X", ["X"])]) "unrelated").2.1 :=
  ⟨by decide, self_granted_always_orphaned [("X", ["X"])] "X" ["X"]
    (by decide) (by decide) (by decide) "unrelated"⟩
